import Mathlib

/-!
# gostalk: tube scheduling, reserved set, delayed set and command reading

A shallow embedding of `tube.go`, `reserved_jobs.go`, `delayed_jobs.go` and
`readCommand` of `server.go`.

Conventions of the embedding.

* A `*Job` is modelled by the record it points to; the field `id` stands for
  the pointer identity.  A container holds the records of the jobs it
  contains, so a method call on `h[i]` updates the record stored at slot `i`.
* Instants (`time.Time`) and durations are integers (nanoseconds).
* A Go run-time panic (index out of range) is the result `none`.
* A `for` loop is a function with a fuel argument that bounds the number of
  iterations; the callers pass a bound that the loop never exhausts
  (`prio.up_fuel`, `prio.down_fuel`).
* Code that is not among the sources (the `Job` struct, `readyJobs`,
  `buriedJobs`, the package `prio`) is modelled from the specification; each
  such definition says so.
-/

set_option autoImplicit false

namespace Gostalk

/-! ## Data model -/

/-- The queue a job's `jobHolder` refers to. -/
inductive Holder where
  | ready
  | reserved
  | delayed
  | buried
deriving DecidableEq, Repr

/-- Modelled from the spec: the `Job` struct, whose declaration is not among
the sources.  The fields are the ones the sources read and write
(`priority`, `delayEndsAt`, `reserveEndsAt`, `jobHolder`, `timer`, `index`);
`id` is the identity of the job.  `timer` holds the duration of the pending
`time.AfterFunc` timer, if one was started. -/
structure Job where
  id : Nat
  priority : Nat
  delayEndsAt : Int
  reserveEndsAt : Int
  jobHolder : Option Holder
  timer : Option Int
  index : Int
deriving DecidableEq, Repr

/-- The type `reservedJobsItem` is `Job` under another name. -/
abbrev reservedJobsItem := Job

/-- `reservedJobsItem.Less`: `i.reserveEndsAt.Before(j.reserveEndsAt)`. -/
def reservedJobsItem.Less (i j : reservedJobsItem) : Bool :=
  decide (i.reserveEndsAt < j.reserveEndsAt)

/-- `reservedJobsItem.Index`: `i.index = n`. -/
def reservedJobsItem.Index (i : reservedJobsItem) (n : Int) : reservedJobsItem :=
  { i with index := n }

/-! ## The priority queue `prio.Queue` used by the reserved set -/

namespace prio

/-- Modelled from the spec: `prio.Queue`, the indexed binary min-heap that
`reservedJobs` embeds (package `go-priority-queue/prio`, not among the
sources).  The slice `h` holds the elements in heap layout: the children of
slot `i` are the slots `2*i+1` and `2*i+2`. -/
structure Queue where
  h : List Job
deriving DecidableEq, Repr

/-- Modelled from the spec: `Queue.Len`, the number of elements. -/
def Queue.Len (q : Queue) : Nat := q.h.length

/-- Modelled from the spec: the loop `up` of the indexed binary heap: the
element at slot `i` moves towards the root while its parent is not less than
it; every element that changes slot is told its new slot through `Index`.
An index outside the slice leaves the slice as it is. -/
def up : Nat → List Job → Nat → List Job
  | 0, h, _ => h
  | fuel + 1, h, i =>
    let parent := (i - 1) / 2
    match h[parent]?, h[i]? with
    | some p, some c =>
      if i = 0 ∨ reservedJobsItem.Less p c = true then
        h.set i (reservedJobsItem.Index c i)
      else
        up fuel ((h.set parent c).set i (reservedJobsItem.Index p i)) parent
    | _, _ => h

/-- The child of slot `i` that `down` compares with: the right child when it
exists and is less than the left one, else the left child. -/
def pickChild (h : List Job) (i : Nat) : Nat :=
  match h[2 * i + 1]?, h[2 * i + 2]? with
  | some l, some r => if reservedJobsItem.Less r l = true then 2 * i + 2 else 2 * i + 1
  | _, _ => 2 * i + 1

/-- Modelled from the spec: the loop `down` of the indexed binary heap: the
element at slot `i` moves towards the leaves while it is not less than its
smaller child; every element that changes slot is told its new slot through
`Index`. -/
def down : Nat → List Job → Nat → List Job
  | 0, h, _ => h
  | fuel + 1, h, i =>
    match h[i]? with
    | none => h
    | some x =>
      if h.length ≤ 2 * i + 1 then
        h.set i (reservedJobsItem.Index x i)
      else
        let child := pickChild h i
        match h[child]? with
        | none => h
        | some c =>
          if reservedJobsItem.Less x c = true then
            h.set i (reservedJobsItem.Index x i)
          else
            down fuel ((h.set child x).set i (reservedJobsItem.Index c i)) child

/-- Modelled from the spec: `Queue.Push`: append the element and restore the
heap order with `up`. -/
def Queue.Push (q : Queue) (x : Job) : Queue :=
  let n := q.h.length
  { h := up (n + 1) (q.h ++ [x]) n }

/-- Modelled from the spec: `Queue.Remove`: take the element at slot `i` out,
put the last element in its place and restore the heap order with `down`
and `up`; the removed element is told the slot `-1`.  A slot outside the
slice is an index-out-of-range panic. -/
def Queue.Remove (q : Queue) (i : Int) : Option (Job × Queue) :=
  if i < 0 then none
  else
    let k := i.toNat
    match q.h[k]? with
    | none => none
    | some x =>
      let n := q.h.length - 1
      let h := (q.h.set k (q.h.getLastD x)).dropLast
      let h := if k < n then up (k + 1) (down n h k) k else h
      some (reservedJobsItem.Index x (-1), { h := h })

/-- Modelled from the spec: `Queue.Pop`: remove and return the element at
the root, the minimum of the queue. -/
def Queue.Pop (q : Queue) : Option (Job × Queue) :=
  match q.h[0]? with
  | none => none
  | some x =>
    let n := q.h.length - 1
    let h := (q.h.set 0 (q.h.getLastD x)).dropLast
    let h := if 0 < n then down n h 0 else h
    some (reservedJobsItem.Index x (-1), { h := h })

end prio

/-! ## `reserved_jobs.go` -/

/-- The struct `reservedJobs`, which embeds `prio.Queue`. -/
structure reservedJobs extends prio.Queue
deriving DecidableEq, Repr

/-- `newReservedJobs`. -/
def newReservedJobs : reservedJobs := { h := [] }

/-- `reservedJobs.getJob`: pop the queue and clear the job's holder. -/
def reservedJobs.getJob (jobs : reservedJobs) : Option (Job × reservedJobs) :=
  match jobs.toQueue.Pop with
  | none => none
  | some (job, q) => some ({ job with jobHolder := none }, { toQueue := q })

/-- `reservedJobs.putJob`: set the job's holder and push it. -/
def reservedJobs.putJob (jobs : reservedJobs) (job : Job) : reservedJobs :=
  { toQueue := jobs.toQueue.Push { job with jobHolder := some Holder.reserved } }

/-- `reservedJobs.deleteJob`: `jobs.Remove(job.index)`; the removed element is
dropped. -/
def reservedJobs.deleteJob (jobs : reservedJobs) (job : Job) : Option reservedJobs :=
  match jobs.toQueue.Remove job.index with
  | none => none
  | some (_, q) => some { toQueue := q }

/-! ## `delayed_jobs.go` -/

/-- The struct `delayedJobs` has the one field `amount`.  `timers` stands for
the timers that `putJob` started with `time.AfterFunc` and that are still
pending: the jobs of the delayed set that have neither fired nor been
deleted or buried.  It is kept by the Go run time, not by the struct. -/
structure delayedJobs where
  amount : Int
  timers : List Job
deriving DecidableEq, Repr

/-- `newDelayedJobs`. -/
def newDelayedJobs : delayedJobs := { amount := 0, timers := [] }

/-- `delayedJobs.Len`. -/
def delayedJobs.Len (jobs : delayedJobs) : Int := jobs.amount

/-- `delayedJobs.putJob` at the instant `now`: the job's holder becomes the
delayed set and a timer of `delayEndsAt - now` is started; `amount` is not
touched. -/
def delayedJobs.putJob (jobs : delayedJobs) (job : Job) (now : Int) : delayedJobs :=
  let duration := job.delayEndsAt - now
  let job := { job with jobHolder := some Holder.delayed }
  let job := { job with timer := some duration }
  { jobs with timers := jobs.timers ++ [job] }

/-- The number of jobs the delayed set holds: the pending timers. -/
def delayedJobs.count (jobs : delayedJobs) : Nat := jobs.timers.length

/-- `delayedJobs.kickJobs`: the body is a bare `return`, so the result
`actual` is the zero value and nothing is moved. -/
def delayedJobs.kickJobs (jobs : delayedJobs) (_bound : Int) : Int × delayedJobs :=
  (0, jobs)

/-! ## `tube.go` -/

/-- Modelled from the spec: `readyJobs`, the ready queue of a tube, whose
declaration is not among the sources: a min-heap of jobs ordered by
priority, ties broken by earlier arrival.  `items` lists the jobs in arrival
order. -/
structure readyJobs where
  items : List Job
deriving DecidableEq, Repr

/-- Modelled from the spec: `newReadyJobs`, the empty ready queue. -/
def newReadyJobs : readyJobs := { items := [] }

/-- Modelled from the spec: `readyJobs.Len`, the number of ready jobs. -/
def readyJobs.Len (ready : readyJobs) : Nat := ready.items.length

/-- Modelled from the spec: `heap.Push(tube.ready, job)` inserts the job. -/
def readyJobs.heapPush (ready : readyJobs) (job : Job) : readyJobs :=
  { items := ready.items ++ [job] }

/-- The first job of least priority in a list in arrival order, and the
other jobs in their order; `none` for the empty list. -/
def popLowest : List Job → Option (Job × List Job)
  | [] => none
  | j :: rest =>
    match popLowest rest with
    | none => some (j, [])
    | some (m, others) =>
      if m.priority < j.priority then some (m, j :: others) else some (j, rest)

/-- Modelled from the spec: `heap.Pop(tube.ready)` removes and returns the
job with the lowest (priority, arrival order); on an empty queue it is an
index-out-of-range panic. -/
def readyJobs.heapPop (ready : readyJobs) : Option (Job × readyJobs) :=
  match popLowest ready.items with
  | none => none
  | some (job, others) => some (job, { items := others })

/-- Modelled from the spec: `buriedJobs`, the buried list of a tube, whose
declaration is not among the sources: an unordered holding area. -/
structure buriedJobs where
  items : List Job
deriving DecidableEq, Repr

/-- The struct `Tube`.  The channels `jobDemand` and `jobSupply` are not
fields of the model: what arrives on them is the `Event` an iteration of
`handleDemand` is given. -/
structure Tube where
  name : String
  ready : readyJobs
  reserved : reservedJobs
  buried : buriedJobs
  delayed : delayedJobs
  statUrgent : Int
  statReady : Int
  statReserved : Int
  statDelayed : Int
  statBuried : Int
deriving DecidableEq, Repr

/-- `newTube`: empty holders, counters at their zero value. -/
def newTube (name : String) : Tube :=
  { name := name
    ready := newReadyJobs
    reserved := newReservedJobs
    buried := { items := [] }
    delayed := newDelayedJobs
    statUrgent := 0
    statReady := 0
    statReserved := 0
    statDelayed := 0
    statBuried := 0 }

/-- `Tube.reserve`: pop the ready queue, set `statReady`, push the job into
the reserved set, set `statReserved`, return the job.  There is no instant
and no ttl among its inputs, and no assignment to `reserveEndsAt`.
`heap.Push(tube.reserved, job)` is the push of the reserved set's queue;
`putJob` is not called, so `jobHolder` is not set.  The result is the job as
it was popped; the record the reserved set holds also carries its slot.
`none` is the panic of the pop on an empty ready queue. -/
def Tube.reserve (tube : Tube) : Option (Job × Tube) :=
  match tube.ready.heapPop with
  | none => none
  | some (job, ready) =>
    let tube := { tube with ready := ready }
    let tube := { tube with statReady := tube.ready.Len }
    let tube := { tube with reserved := { toQueue := tube.reserved.toQueue.Push job } }
    let tube := { tube with statReserved := tube.reserved.Len }
    some (job, tube)

/-- `Tube.put`: push the job onto the ready queue, set `statReady`, and count
the job as urgent when its priority is below 1024. -/
def Tube.put (tube : Tube) (job : Job) : Tube :=
  let tube := { tube with ready := tube.ready.heapPush job }
  let tube := { tube with statReady := tube.ready.Len }
  if job.priority < 1024 then { tube with statUrgent := tube.statUrgent + 1 } else tube

/-- What the channels offer to one iteration of `handleDemand`: a job on
`jobSupply`, or a request on `jobDemand`; for a request, `cancelWins` says
which communication of the inner `select` proceeds. -/
inductive Event where
  | supply (job : Job)
  | demand (cancelWins : Bool)
deriving DecidableEq, Repr

/-- The outcome of one iteration of the loop of `handleDemand`. -/
inductive Iteration where
  /-- A job was received from `jobSupply` and `put` was called. -/
  | supplied (tube : Tube)
  /-- A request was received and `reserve` was called and returned `job`;
  `granted` tells whether the job was sent on `request.success` or the cancel
  was received and echoed. -/
  | demanded (tube : Tube) (job : Job) (granted : Bool)
  /-- The request was not received: the loop waits on `jobSupply` alone. -/
  | waiting
  /-- The call of `reserve` panicked. -/
  | panicked
deriving DecidableEq, Repr

/-- One iteration of the loop of `Tube.handleDemand`.  With a non-empty ready
queue the outer `select` receives from either channel.  On entering the
inner `select` Go evaluates the right-hand side of the send:
`tube.reserve()` is called before either communication is chosen, so its
effect on the tube is there whichever case proceeds.  With an empty ready
queue only `jobSupply` is received from. -/
def Tube.handleDemand (tube : Tube) (e : Event) : Iteration :=
  if tube.ready.Len > 0 then
    match e with
    | Event.supply job => Iteration.supplied (tube.put job)
    | Event.demand cancelWins =>
      match tube.reserve with
      | none => Iteration.panicked
      | some (job, tube) => Iteration.demanded tube job (!cancelWins)
  else
    match e with
    | Event.supply job => Iteration.supplied (tube.put job)
    | Event.demand _ => Iteration.waiting

/-- An operation on a tube: `put(job)` or `reserve()`. -/
inductive TubeOp where
  | put (job : Job)
  | reserve
deriving DecidableEq, Repr

/-- Apply one operation; `none` when `reserve` panics. -/
def Tube.apply (tube : Tube) : TubeOp → Option Tube
  | TubeOp.put job => some (tube.put job)
  | TubeOp.reserve => (tube.reserve).map Prod.snd

/-- Apply a sequence of operations from left to right. -/
def Tube.applyAll (tube : Tube) : List TubeOp → Option Tube
  | [] => some tube
  | op :: ops =>
    match tube.apply op with
    | none => none
    | some t => t.applyAll ops

/-- The number of jobs in the ready queue whose priority is below the urgent
threshold 1024. -/
def Tube.urgentReady (tube : Tube) : Nat :=
  (tube.ready.items.filter (fun j => decide (j.priority < 1024))).length

/-! ## `server.go`: `readCommand` -/

/-- `unicode.IsSpace` of the Go library: the white space characters. -/
def isSpace (r : Char) : Bool :=
  let n := r.toNat
  (9 ≤ n && n ≤ 13) || n == 32 || n == 0x85 || n == 0xA0 || n == 0x1680 ||
    (0x2000 ≤ n && n ≤ 0x200A) || n == 0x2028 || n == 0x2029 || n == 0x202F ||
    n == 0x205F || n == 0x3000

/-- The loop of `strings.Fields`: `cur` is the field being read, reversed. -/
def fieldsFrom : List Char → Option (List Char) → List String
  | [], none => []
  | [], some w => [String.mk w.reverse]
  | c :: cs, cur =>
    if isSpace c then
      match cur with
      | none => fieldsFrom cs none
      | some w => String.mk w.reverse :: fieldsFrom cs none
    else
      fieldsFrom cs (some (c :: cur.getD []))

/-- `strings.Fields` of the Go library: the maximal runs of non-space
characters of `s`, in order. -/
def Fields (s : String) : List String := fieldsFrom s.toList none

/-- The fields of `Cmd` that `readCommand` fills from the line; the two
channels it makes are left out. -/
structure Cmd where
  name : String
  args : List String
deriving DecidableEq, Repr

/-- The result of `readCommand`: `(cmd, nil)`, `(nil, err)`, or a run-time
panic. -/
inductive ReadResult where
  | ok (cmd : Cmd)
  | err (e : String)
  | indexOutOfRange
deriving DecidableEq, Repr

/-- `readCommand`; `line` is what `reader.ReadLine()` returned: the line
without its end-of-line bytes, or an error.  `chunks[0]` and `chunks[1:]`
are out of range when `chunks` is empty. -/
def readCommand (line : Except String String) : ReadResult :=
  match line with
  | Except.error e => ReadResult.err e
  | Except.ok sline =>
    let chunks := Fields sline
    match chunks[0]? with
    | none => ReadResult.indexOutOfRange
    | some name =>
      if 1 ≤ chunks.length then ReadResult.ok { name := name, args := chunks.drop 1 }
      else ReadResult.indexOutOfRange

/-! ## Specification vocabulary -/

namespace prio

/-- A job with its `index` field blanked: what a job is apart from its slot. -/
def unslot (j : Job) : Job := { j with index := 0 }

/-- The key of the job at slot `k`, if there is one. -/
def keyAt (h : List Job) (k : Nat) : Option Int := (h[k]?).map Job.reserveEndsAt

/-- Every job of the slice records its own slot in `index`. -/
def SlotsOK (h : List Job) : Prop :=
  ∀ (k : Nat) (a : Job), h[k]? = some a → a.index = (k : Int)

/-- Every job of the slice but the one at slot `i` records its own slot. -/
def SlotsOKBut (h : List Job) (i : Nat) : Prop :=
  ∀ (k : Nat) (a : Job), k ≠ i → h[k]? = some a → a.index = (k : Int)

/-- The job at slot `k` does not expire before the job at its parent slot. -/
def OrdAt (h : List Job) (k : Nat) : Prop :=
  ∀ a p, keyAt h k = some a → keyAt h ((k - 1) / 2) = some p → p ≤ a

/-- Heap order: no job expires before its parent. -/
def Ordered (h : List Job) : Prop := ∀ k, OrdAt h k

/-- The children of slot `i` do not expire before the parent of slot `i`. -/
def Bridged (h : List Job) (i : Nat) : Prop :=
  0 < i → ∀ c a g, (c - 1) / 2 = i → 0 < c → keyAt h c = some a →
    keyAt h ((i - 1) / 2) = some g → g ≤ a

/-- Heap order except that the job at slot `i` may expire before its parent. -/
def UpInv (h : List Job) (i : Nat) : Prop :=
  (∀ k, k ≠ i → OrdAt h k) ∧ Bridged h i

/-- Heap order except that the job at slot `i` may expire after its children. -/
def DownInv (h : List Job) (i : Nat) : Prop :=
  (∀ k, (k - 1) / 2 ≠ i → OrdAt h k) ∧ Bridged h i

end prio

/-- The pointers of the jobs a reserved set holds. -/
def reservedJobs.ids (jobs : reservedJobs) : List Nat := jobs.h.map Job.id

/-- The invariant of a reserved set: heap order by `reserveEndsAt`, and every
job records its slot. -/
structure reservedJobs.Inv (jobs : reservedJobs) : Prop where
  ordered : prio.Ordered jobs.h
  slots : prio.SlotsOK jobs.h

/-- The reserved set built from the empty one by `putJob` on the jobs of `js`
in order. -/
def reservedJobs.build (js : List Job) : reservedJobs :=
  js.foldl reservedJobs.putJob newReservedJobs

/-- The reserved sets built by calls of `putJob`, `getJob` and `deleteJob`:
`putJob` is given a job the set does not hold, `deleteJob` a job it holds. -/
inductive reservedJobs.Built : reservedJobs → Prop where
  | new : reservedJobs.Built newReservedJobs
  | put {jobs : reservedJobs} (job : Job) : reservedJobs.Built jobs → job.id ∉ jobs.ids →
      reservedJobs.Built (jobs.putJob job)
  | get {jobs rest : reservedJobs} {job : Job} : reservedJobs.Built jobs →
      jobs.getJob = some (job, rest) → reservedJobs.Built rest
  | delete {jobs rest : reservedJobs} (job : Job) : reservedJobs.Built jobs → job ∈ jobs.h →
      jobs.deleteJob job = some rest → reservedJobs.Built rest

/-- The reserved sets that come after `start` by further calls of `putJob`,
`getJob` and `deleteJob`, none of which puts the job `id` back. -/
inductive reservedJobs.Later (id : Nat) (start : reservedJobs) : reservedJobs → Prop where
  | here : reservedJobs.Later id start start
  | put {jobs : reservedJobs} (job : Job) : reservedJobs.Later id start jobs →
      job.id ∉ jobs.ids → job.id ≠ id → reservedJobs.Later id start (jobs.putJob job)
  | get {jobs rest : reservedJobs} {job : Job} : reservedJobs.Later id start jobs →
      jobs.getJob = some (job, rest) → reservedJobs.Later id start rest
  | delete {jobs rest : reservedJobs} (job : Job) : reservedJobs.Later id start jobs →
      job ∈ jobs.h → jobs.deleteJob job = some rest → reservedJobs.Later id start rest

/-- The loop of `handleDemand` run on the events the channels offer in turn;
a request that is not received leaves the tube as it is.  `none` when an
iteration panics. -/
def Tube.run (tube : Tube) : List Event → Option Tube
  | [] => some tube
  | e :: es =>
    match tube.handleDemand e with
    | Iteration.supplied t => t.run es
    | Iteration.demanded t _ _ => t.run es
    | Iteration.waiting => tube.run es
    | Iteration.panicked => none

/-- The counters `statReady` and `statReserved` agree with the holders. -/
def Tube.StatsFresh (t : Tube) : Prop :=
  t.statReady = (t.ready.Len : Int) ∧ t.statReserved = (t.reserved.Len : Int)

/-! ## Sample inputs -/

/-- A job with the given identity, priority and reservation deadline, no
delay, held by nobody. -/
def sampleJob (id priority : Nat) (reserveEndsAt : Int) : Job :=
  { id := id, priority := priority, delayEndsAt := 0, reserveEndsAt := reserveEndsAt,
    jobHolder := none, timer := none, index := 0 }

/-- A tube named `default` whose ready queue holds one urgent job. -/
def oneJobTube : Tube := (newTube "default").put (sampleJob 1 10 7)

/-- A job whose delay ends at instant 100. -/
def delayedSample : Job := { sampleJob 2 10 0 with delayEndsAt := 100 }

/-- Three jobs with the deadlines 50, 30 and 40. -/
def threeJobs : List Job := [sampleJob 1 0 50, sampleJob 2 0 30, sampleJob 3 0 40]

/-- The reserved set after `putJob` of the three jobs. -/
def threeSet : reservedJobs := reservedJobs.build threeJobs

/-- The record of job 1 as `threeSet` holds it: at slot 1. -/
def heldJob : Job := { sampleJob 1 0 50 with jobHolder := some Holder.reserved, index := 1 }

/-! # Theorems -/

namespace prio

/-! ## Lemmas on lists -/

theorem set_perm_cons {α : Type} (l : List α) (b : Nat) (x y : α) (hb : l[b]? = some y) :
    (y :: l.set b x).Perm (x :: l) := by
  induction l generalizing b with
  | nil => simp at hb
  | cons w t ih =>
    cases b with
    | zero =>
      simp at hb
      subst hb
      simpa using List.Perm.swap _ _ _
    | succ b =>
      simp at hb
      simp only [List.set_cons_succ]
      exact ((List.Perm.swap w y _).trans ((ih b hb).cons w)).trans (List.Perm.swap x w t)

theorem swap_perm {α : Type} (l : List α) (a b : Nat) (x y : α)
    (ha : l[a]? = some x) (hb : l[b]? = some y) : ((l.set a y).set b x).Perm l := by
  induction l generalizing a b with
  | nil => simp at ha
  | cons w t ih =>
    cases a with
    | zero =>
      simp at ha; subst ha
      cases b with
      | zero => simp
      | succ b =>
        simp at hb
        simpa using set_perm_cons t b w y hb
    | succ a =>
      simp at ha
      cases b with
      | zero =>
        simp at hb; subst hb
        simpa using (set_perm_cons t a w x ha)
      | succ b =>
        simp at hb
        simpa using ih a b ha hb

theorem set_of_getElem? {α : Type} (l : List α) (i : Nat) (c : α) (hc : l[i]? = some c) :
    l.set i c = l := by
  apply List.ext_getElem?
  intro k
  rw [List.getElem?_set]
  split_ifs with hik hlt
  · subst hik; exact hc.symm
  · rw [List.getElem?_eq_none (by omega)] at hc
    cases hc
  · rfl

/-! ## The heap invariants -/

theorem unslot_Index (j : Job) (n : Int) : unslot (reservedJobsItem.Index j n) = unslot j := rfl

theorem keyAt_eq_some {h : List Job} {k : Nat} {a : Job} (hk : h[k]? = some a) :
    keyAt h k = some a.reserveEndsAt := by
  simp [keyAt, hk]

theorem keyAt_set (h : List Job) (i k : Nat) (x : Job) :
    keyAt (h.set i x) k =
      if i = k then (if i < h.length then some x.reserveEndsAt else none) else keyAt h k := by
  unfold keyAt
  rw [List.getElem?_set]
  split_ifs <;> rfl

theorem keyAt_set_Index {h : List Job} {i : Nat} {c : Job} (hc : h[i]? = some c) (n : Int)
    (k : Nat) : keyAt (h.set i (reservedJobsItem.Index c n)) k = keyAt h k := by
  rw [keyAt_set]
  have hi : i < h.length := by
    by_contra hcon
    rw [List.getElem?_eq_none (by omega)] at hc
    cases hc
  split_ifs with hik
  · subst hik
    rw [keyAt_eq_some hc]; rfl
  · rfl

theorem lt_length_of_getElem? {h : List Job} {i : Nat} {c : Job} (hc : h[i]? = some c) :
    i < h.length := by
  by_contra hcon
  rw [List.getElem?_eq_none (by omega)] at hc
  cases hc

theorem keyAt_swap {h : List Job} {a b : Nat} {x y : Job} (ha : h[a]? = some x)
    (hb : h[b]? = some y) (n : Int) (k : Nat) :
    keyAt ((h.set a y).set b (reservedJobsItem.Index x n)) k =
      if k = b then some x.reserveEndsAt else if k = a then some y.reserveEndsAt
      else keyAt h k := by
  have hla := lt_length_of_getElem? ha
  have hlb := lt_length_of_getElem? hb
  rw [keyAt_set, keyAt_set]
  simp only [List.length_set]
  split_ifs <;> first | rfl | omega

/-! ## The loop `up` -/

theorem getElem?_of_lt {h : List Job} {i : Nat} (hi : i < h.length) : ∃ c, h[i]? = some c :=
  ⟨h[i], List.getElem?_eq_getElem hi⟩

theorem up_length (fuel : Nat) (h : List Job) (i : Nat) : (up fuel h i).length = h.length := by
  induction fuel generalizing h i with
  | zero => rfl
  | succ f ih =>
    unfold up
    dsimp only
    split
    · split_ifs
      · simp
      · rw [ih]; simp
    · rfl

theorem up_perm (fuel : Nat) (h : List Job) (i : Nat) :
    ((up fuel h i).map unslot).Perm (h.map unslot) := by
  induction fuel generalizing h i with
  | zero => exact List.Perm.refl _
  | succ f ih =>
    unfold up
    dsimp only
    split
    · rename_i p c hp hc
      split_ifs
      · rw [List.map_set, unslot_Index, ← List.map_set, set_of_getElem? _ _ _ hc] 
      · refine (ih _ _).trans ?_
        rw [List.map_set, List.map_set, unslot_Index]
        exact swap_perm _ _ _ _ _ (by simp [hp]) (by simp [hc])
    · exact List.Perm.refl _

/-- The loop `up` ends by its own test before a fuel of `i + 1` runs out: any
two such amounts of fuel give the same slice. -/
theorem up_fuel (f g : Nat) (h : List Job) (i : Nat) (hf : i < f) (hg : i < g) :
    up f h i = up g h i := by
  induction f generalizing g h i with
  | zero => omega
  | succ f ih =>
    cases g with
    | zero => omega
    | succ g =>
      unfold up
      dsimp only
      split
      · split_ifs with hc
        · rfl
        · have : i ≠ 0 := fun h0 => hc (Or.inl h0)
          exact ih g _ _ (by omega) (by omega)
      · rfl

theorem up_slots (fuel : Nat) (h : List Job) (i : Nat) (hi : i < h.length) (hf : i < fuel)
    (inv : SlotsOKBut h i) : SlotsOK (up fuel h i) := by
  induction fuel generalizing h i with
  | zero => omega
  | succ f ih =>
    obtain ⟨c, hc⟩ := getElem?_of_lt hi
    obtain ⟨p, hp⟩ := getElem?_of_lt (show (i - 1) / 2 < h.length by omega)
    unfold up
    simp only [hp, hc]
    split_ifs with hcond
    · intro k a hk
      rw [List.getElem?_set] at hk
      split_ifs at hk with hik
      · cases hk; subst hik; rfl
      · exact inv k a (Ne.symm hik) hk
    · have hi0 : i ≠ 0 := fun h0 => hcond (Or.inl h0)
      apply ih
      · simpa using (show (i - 1) / 2 < h.length by omega)
      · omega
      · intro k a hk hka
        rw [List.getElem?_set] at hka
        split_ifs at hka with hik
        · cases hka; subst hik; rfl
        · rw [List.getElem?_set_ne (Ne.symm hk)] at hka
          exact inv k a (Ne.symm hik) hka

theorem up_ordered (fuel : Nat) (h : List Job) (i : Nat) (hi : i < h.length) (hf : i < fuel)
    (inv : UpInv h i) : Ordered (up fuel h i) := by
  induction fuel generalizing h i with
  | zero => omega
  | succ f ih =>
    obtain ⟨c, hc⟩ := getElem?_of_lt hi
    obtain ⟨p, hp⟩ := getElem?_of_lt (show (i - 1) / 2 < h.length by omega)
    unfold up
    simp only [hp, hc]
    split_ifs with hcond
    · intro k a q hka hkq
      rw [keyAt_set_Index hc] at hka hkq
      by_cases hki : k = i
      · subst hki
        rw [keyAt_eq_some hc] at hka
        rw [keyAt_eq_some hp] at hkq
        cases hka; cases hkq
        rcases hcond with h0 | hlt
        · subst h0
          simp at hp
          rw [hp] at hc; cases hc; exact le_refl _
        · simp [reservedJobsItem.Less] at hlt
          omega
      · exact inv.1 k hki a q hka hkq
    · have hi0 : i ≠ 0 := fun h0 => hcond (Or.inl h0)
      have hle : c.reserveEndsAt ≤ p.reserveEndsAt := by
        have : ¬ (reservedJobsItem.Less p c = true) := fun hl => hcond (Or.inr hl)
        simp [reservedJobsItem.Less] at this
        exact this
      have hkp := keyAt_eq_some hp
      have hkc := keyAt_eq_some hc
      have hsw := keyAt_swap hp hc (i : Int)
      apply ih
      · simpa using (show (i - 1) / 2 < h.length by omega)
      · omega
      · constructor
        · intro k hk a q hka hkq
          rw [hsw] at hka hkq
          by_cases hki : k = i
          · subst hki
            simp only [if_true] at hka
            rw [if_neg (by omega), if_pos rfl] at hkq
            cases hka; cases hkq; exact hle
          · rw [if_neg hki, if_neg hk] at hka
            by_cases h1 : (k - 1) / 2 = i
            · rw [if_pos h1] at hkq
              cases hkq
              exact inv.2 (by omega) k a _ h1 (by omega) hka hkp
            · rw [if_neg h1] at hkq
              by_cases h2 : (k - 1) / 2 = (i - 1) / 2
              · rw [if_pos h2] at hkq
                cases hkq
                have := inv.1 k hki a _ hka (h2 ▸ hkp)
                omega
              · rw [if_neg h2] at hkq
                exact inv.1 k hki a q hka hkq
        · intro hpos d a g hd hd0 hka hkg
          rw [hsw] at hka hkg
          rw [if_neg (by omega), if_neg (by omega)] at hkg
          have hpg := inv.1 ((i - 1) / 2) (by omega) _ g hkp hkg
          by_cases hdi : d = i
          · rw [if_pos hdi] at hka
            cases hka; exact hpg
          · rw [if_neg hdi, if_neg (by omega)] at hka
            have := inv.1 d hdi a _ hka (hd ▸ hkp)
            omega

/-! ## The loop `down` -/

theorem pickChild_cases (h : List Job) (i : Nat) :
    pickChild h i = 2 * i + 1 ∨ pickChild h i = 2 * i + 2 := by
  unfold pickChild
  split
  · split_ifs
    · exact Or.inr rfl
    · exact Or.inl rfl
  · exact Or.inl rfl

theorem pickChild_lt (h : List Job) (i : Nat) (hl : 2 * i + 1 < h.length) :
    pickChild h i < h.length := by
  unfold pickChild
  split
  · rename_i l r hl1 hr
    split_ifs
    · exact lt_length_of_getElem? hr
    · exact hl
  · exact hl

theorem pickChild_le (h : List Job) (i : Nat) (c : Job) (hc : h[pickChild h i]? = some c)
    (d : Nat) (a : Int) (hd : d = 2 * i + 1 ∨ d = 2 * i + 2) (ha : keyAt h d = some a) :
    c.reserveEndsAt ≤ a := by
  unfold pickChild at hc
  split at hc
  · rename_i l r hl hr
    have hkl := keyAt_eq_some hl
    have hkr := keyAt_eq_some hr
    split_ifs at hc with hlt
    · rw [hr] at hc; cases hc
      simp [reservedJobsItem.Less] at hlt
      rcases hd with hd | hd <;> subst hd
      · rw [hkl] at ha; cases ha; omega
      · rw [hkr] at ha; cases ha; exact le_refl _
    · rw [hl] at hc; cases hc
      simp [reservedJobsItem.Less] at hlt
      rcases hd with hd | hd <;> subst hd
      · rw [hkl] at ha; cases ha; exact le_refl _
      · rw [hkr] at ha; cases ha; exact hlt
  · rename_i hno
    rcases hd with hd | hd <;> subst hd
    · rw [keyAt_eq_some hc] at ha; cases ha; exact le_refl _
    · exfalso
      unfold keyAt at ha
      cases hr : h[2 * i + 2]? with
      | none => rw [hr] at ha; cases ha
      | some r => exact hno c r hc hr

theorem down_length (fuel : Nat) (h : List Job) (i : Nat) :
    (down fuel h i).length = h.length := by
  induction fuel generalizing h i with
  | zero => rfl
  | succ f ih =>
    unfold down
    split
    · rfl
    · split_ifs
      · simp
      · dsimp only
        split
        · rfl
        · split_ifs
          · simp
          · rw [ih]; simp

theorem down_perm (fuel : Nat) (h : List Job) (i : Nat) :
    ((down fuel h i).map unslot).Perm (h.map unslot) := by
  induction fuel generalizing h i with
  | zero => exact List.Perm.refl _
  | succ f ih =>
    unfold down
    split
    · exact List.Perm.refl _
    · rename_i x hx
      have hexit : ((h.set i (reservedJobsItem.Index x i)).map unslot).Perm (h.map unslot) := by
        rw [List.map_set, unslot_Index, ← List.map_set, set_of_getElem? _ _ _ hx]
      split_ifs
      · exact hexit
      · dsimp only
        split
        · exact List.Perm.refl _
        · rename_i c hc
          split_ifs
          · exact hexit
          · refine (ih _ _).trans ?_
            rw [List.map_set, List.map_set, unslot_Index]
            exact swap_perm _ _ _ _ _ (by simp [hc]) (by simp [hx])

/-- The loop `down` ends by its own test before a fuel of `len(h) - i` runs
out: any two such amounts of fuel give the same slice. -/
theorem down_fuel (f g : Nat) (h : List Job) (i : Nat) (hi : i < h.length)
    (hf : h.length ≤ f + i) (hg : h.length ≤ g + i) : down f h i = down g h i := by
  induction f generalizing g h i with
  | zero => omega
  | succ f ih =>
    cases g with
    | zero => omega
    | succ g =>
      unfold down
      split
      · rfl
      · split_ifs with hl
        · rfl
        · dsimp only
          have hlt := pickChild_lt h i (by omega)
          have hcs := pickChild_cases h i
          split
          · rfl
          · split_ifs
            · rfl
            · apply ih
              · simpa using hlt
              · simp only [List.length_set]; omega
              · simp only [List.length_set]; omega

theorem down_slots (fuel : Nat) (h : List Job) (i : Nat) (hi : i < h.length)
    (hf : h.length ≤ fuel + i) (inv : SlotsOKBut h i) : SlotsOK (down fuel h i) := by
  induction fuel generalizing h i with
  | zero => omega
  | succ f ih =>
    obtain ⟨x, hx⟩ := getElem?_of_lt hi
    have hexit : SlotsOK (h.set i (reservedJobsItem.Index x i)) := by
      intro k a hk
      rw [List.getElem?_set] at hk
      split_ifs at hk with hik
      · cases hk; subst hik; rfl
      · exact inv k a (Ne.symm hik) hk
    unfold down
    simp only [hx]
    split_ifs with hl
    · exact hexit
    · have hlt := pickChild_lt h i (by omega)
      have hcs := pickChild_cases h i
      obtain ⟨c, hc⟩ := getElem?_of_lt hlt
      simp only [hc]
      split_ifs
      · exact hexit
      · apply ih
        · simpa using hlt
        · simp only [List.length_set]; omega
        · intro k a hk hka
          rw [List.getElem?_set] at hka
          split_ifs at hka with hik
          · cases hka; subst hik; rfl
          · rw [List.getElem?_set_ne (Ne.symm hk)] at hka
            exact inv k a (Ne.symm hik) hka

/-- Heap order follows when the job at the exceptional slot expires no later
than its children. -/
theorem ordered_of_downInv (h : List Job) (i : Nat) (x : Job) (hx : h[i]? = some x)
    (inv : DownInv h i)
    (hch : ∀ d a, d = 2 * i + 1 ∨ d = 2 * i + 2 → keyAt h d = some a → x.reserveEndsAt ≤ a) :
    Ordered h := by
  intro k a q hka hkq
  by_cases hk : (k - 1) / 2 = i
  · by_cases hk0 : k = 0
    · subst hk0
      simp at hkq
      rw [hkq] at hka; cases hka; exact le_refl _
    · rw [hk, keyAt_eq_some hx] at hkq
      cases hkq
      exact hch k a (by omega) hka
  · exact inv.1 k hk a q hka hkq

theorem ordered_set_Index {h : List Job} {i : Nat} {x : Job} (hx : h[i]? = some x) (n : Int)
    (ho : Ordered h) : Ordered (h.set i (reservedJobsItem.Index x n)) := by
  intro k a q hka hkq
  rw [keyAt_set_Index hx] at hka hkq
  exact ho k a q hka hkq

theorem down_ordered (fuel : Nat) (h : List Job) (i : Nat) (hi : i < h.length)
    (hf : h.length ≤ fuel + i) (inv : DownInv h i) : Ordered (down fuel h i) := by
  induction fuel generalizing h i with
  | zero => omega
  | succ f ih =>
    obtain ⟨x, hx⟩ := getElem?_of_lt hi
    have hkx := keyAt_eq_some hx
    unfold down
    simp only [hx]
    split_ifs with hl
    · apply ordered_set_Index hx
      apply ordered_of_downInv h i x hx inv
      intro d a hd ha
      exfalso
      unfold keyAt at ha
      rw [List.getElem?_eq_none (by omega)] at ha
      cases ha
    · have hlt := pickChild_lt h i (by omega)
      have hcs := pickChild_cases h i
      obtain ⟨c, hc⟩ := getElem?_of_lt hlt
      have hkc := keyAt_eq_some hc
      have hmin := pickChild_le h i c hc
      simp only [hc]
      split_ifs with hless
      · apply ordered_set_Index hx
        apply ordered_of_downInv h i x hx inv
        intro d a hd ha
        have := hmin d a hd ha
        simp [reservedJobsItem.Less] at hless
        omega
      · have hle : c.reserveEndsAt ≤ x.reserveEndsAt := by
          simp [reservedJobsItem.Less] at hless
          exact hless
        have hsw := keyAt_swap hc hx (i : Int)
        apply ih
        · simpa using hlt
        · simp only [List.length_set]; omega
        · constructor
          · intro k hk a q hka hkq
            rw [hsw] at hka hkq
            by_cases hki : k = i
            · rw [if_pos hki] at hka
              cases hka
              by_cases hi0 : i = 0
              · rw [if_pos (by omega)] at hkq
                cases hkq; exact le_refl _
              · rw [if_neg (by omega), if_neg (by omega)] at hkq
                exact inv.2 (by omega) (pickChild h i) _ q (by omega) (by omega) hkc
                  (by rw [← hki]; exact hkq)
            · rw [if_neg hki] at hka
              by_cases hkc2 : k = pickChild h i
              · rw [if_pos hkc2] at hka
                cases hka
                rw [if_pos (by omega)] at hkq
                cases hkq; exact hle
              · rw [if_neg hkc2] at hka
                by_cases hpk : (k - 1) / 2 = i
                · rw [if_pos hpk] at hkq
                  cases hkq
                  exact hmin k a (by omega) hka
                · rw [if_neg hpk, if_neg hk] at hkq
                  exact inv.1 k hpk a q hka hkq
          · intro _ d a g hd hd0 hka hkg
            rw [hsw] at hka hkg
            rw [if_pos (by omega)] at hkg
            cases hkg
            rw [if_neg (by omega), if_neg (by omega)] at hka
            exact inv.1 d (by omega) a _ hka (by rw [hd]; exact hkc)

/-- When the job at slot `i` expires before each of its children, `down`
leaves every job in its slot. -/
theorem down_of_lt (fuel : Nat) (h : List Job) (i : Nat) (x : Job) (hx : h[i]? = some x)
    (hch : ∀ d a, d = 2 * i + 1 ∨ d = 2 * i + 2 → keyAt h d = some a → x.reserveEndsAt < a) :
    down (fuel + 1) h i = h.set i (reservedJobsItem.Index x i) := by
  unfold down
  simp only [hx]
  split_ifs with hl
  · rfl
  · have hlt := pickChild_lt h i (by omega)
    obtain ⟨c, hc⟩ := getElem?_of_lt hlt
    simp only [hc]
    have := hch _ _ (pickChild_cases h i) (keyAt_eq_some hc)
    rw [if_pos (by simpa [reservedJobsItem.Less] using this)]

/-! ## `Push`, `Pop` and `Remove` -/

/-- The slice after the element at slot `k` was overwritten by the last
element and the last slot was cut off. -/
theorem cut_perm {α : Type} (l : List α) (k : Nat) (x : α) (hk : l[k]? = some x) :
    l.Perm (x :: (l.set k (l.getLastD x)).dropLast) := by
  rcases List.eq_nil_or_concat l with hnil | ⟨t, b, hl⟩
  · subst hnil; simp at hk
  · rw [List.concat_eq_append] at hl
    subst hl
    rw [List.getLastD_concat]
    by_cases hkt : k < t.length
    · rw [List.set_append_left _ _ hkt, List.dropLast_concat]
      rw [List.getElem?_append_left hkt] at hk
      exact (List.perm_append_singleton b t).trans (set_perm_cons t k b x hk).symm
    · have hlen : k < (t ++ [b]).length := by
        by_contra hcon
        rw [List.getElem?_eq_none (by omega)] at hk
        cases hk
      simp at hlen
      have hkeq : k = t.length := by omega
      subst hkeq
      simp at hk
      subst hk
      rw [List.set_append_right _ _ (le_refl _)]
      simp

theorem getLastD_eq {h : List Job} {x last : Job} (hlast : h[h.length - 1]? = some last) :
    h.getLastD x = last := by
  rw [List.getLastD_eq_getLast?, List.getLast?_eq_getElem?, hlast]
  rfl

theorem cut_getElem? {h : List Job} {k : Nat} {x last : Job} (hk : h[k]? = some x)
    (hlast : h[h.length - 1]? = some last) (j : Nat) :
    ((h.set k (h.getLastD x)).dropLast)[j]? =
      if j < h.length - 1 then (if j = k then some last else h[j]?) else none := by
  have hkl := lt_length_of_getElem? hk
  rw [getLastD_eq hlast, List.getElem?_dropLast, List.length_set, List.getElem?_set]
  split_ifs <;> first | rfl | omega

theorem cut_keyAt {h : List Job} {k : Nat} {x last : Job} (hk : h[k]? = some x)
    (hlast : h[h.length - 1]? = some last) (j : Nat) :
    keyAt ((h.set k (h.getLastD x)).dropLast) j =
      if j < h.length - 1 then
        (if j = k then some last.reserveEndsAt else keyAt h j) else none := by
  unfold keyAt
  rw [cut_getElem? hk hlast]
  split_ifs <;> rfl

theorem cut_length (h : List Job) (k : Nat) (x : Job) :
    ((h.set k (h.getLastD x)).dropLast).length = h.length - 1 := by
  simp

theorem slotsOKBut_of_slotsOK {h : List Job} (hs : SlotsOK h) (i : Nat) : SlotsOKBut h i :=
  fun k a _ hk => hs k a hk

theorem keyAt_isSome {h : List Job} {k : Nat} (hk : k < h.length) :
    ∃ a, keyAt h k = some a := by
  obtain ⟨c, hc⟩ := getElem?_of_lt hk
  exact ⟨_, keyAt_eq_some hc⟩

theorem lt_length_of_keyAt {h : List Job} {k : Nat} {a : Int} (hk : keyAt h k = some a) :
    k < h.length := by
  by_contra hcon
  unfold keyAt at hk
  rw [List.getElem?_eq_none (by omega)] at hk
  cases hk

theorem bridged_of_ordered {h : List Job} (ho : Ordered h) (i : Nat) : Bridged h i := by
  intro _ c a g hc hc0 hka hkg
  have hcl := lt_length_of_keyAt hka
  obtain ⟨m, hm⟩ := keyAt_isSome (show i < h.length by omega)
  have h1 := ho i m g hm hkg
  have h2 := ho c a m hka (by rw [hc]; exact hm)
  omega

theorem upInv_of_ordered {h : List Job} (ho : Ordered h) (i : Nat) : UpInv h i :=
  ⟨fun k _ => ho k, bridged_of_ordered ho i⟩

/-- In heap order the root expires no later than any other job. -/
theorem root_le {h : List Job} (ho : Ordered h) (r : Int) (hr : keyAt h 0 = some r) :
    ∀ k a, keyAt h k = some a → r ≤ a := by
  intro k
  induction k using Nat.strong_induction_on with
  | _ k ih =>
    intro a ha
    by_cases hk : k = 0
    · subst hk
      rw [hr] at ha; cases ha; exact le_refl _
    · have hkl := lt_length_of_keyAt ha
      obtain ⟨m, hm⟩ := keyAt_isSome (show (k - 1) / 2 < h.length by omega)
      have h1 := ih ((k - 1) / 2) (by omega) m hm
      have h2 := ho k a m ha hm
      omega

theorem Push_length (q : Queue) (x : Job) : (q.Push x).Len = q.Len + 1 := by
  simp [Queue.Push, Queue.Len, up_length]

theorem Push_perm (q : Queue) (x : Job) :
    ((q.Push x).h.map unslot).Perm (unslot x :: q.h.map unslot) := by
  unfold Queue.Push
  refine (up_perm _ _ _).trans ?_
  rw [List.map_append]
  exact List.perm_append_singleton _ _

theorem append_keyAt (h : List Job) (x : Job) (k : Nat) (hk : k < h.length) :
    keyAt (h ++ [x]) k = keyAt h k := by
  unfold keyAt
  rw [List.getElem?_append_left hk]

theorem Push_ordered (q : Queue) (x : Job) (ho : Ordered q.h) : Ordered (q.Push x).h := by
  unfold Queue.Push
  apply up_ordered
  · simp
  · omega
  · constructor
    · intro k hk a p hka hkp
      have hkl := lt_length_of_keyAt hka
      simp at hkl
      rw [append_keyAt _ _ _ (by omega)] at hka hkp
      exact ho k a p hka hkp
    · intro _ c a g hc _ hka _
      have hcl := lt_length_of_keyAt hka
      simp at hcl
      omega

theorem Push_slots (q : Queue) (x : Job) (hs : SlotsOK q.h) : SlotsOK (q.Push x).h := by
  unfold Queue.Push
  apply up_slots
  · simp
  · omega
  · intro k a hk hka
    have hkl := lt_length_of_getElem? hka
    simp at hkl
    rw [List.getElem?_append_left (by omega)] at hka
    exact hs k a hka

/-- What `Remove` leaves and returns, for a slot `k` of the slice. -/
theorem Remove_eq (q : Queue) (k : Nat) (x : Job) (hk : q.h[k]? = some x) :
    q.Remove (k : Int) = some (reservedJobsItem.Index x (-1),
      { h := if k < q.h.length - 1 then
          up (k + 1) (down (q.h.length - 1) ((q.h.set k (q.h.getLastD x)).dropLast) k) k
        else (q.h.set k (q.h.getLastD x)).dropLast }) := by
  unfold Queue.Remove
  rw [if_neg (by omega)]
  simp only [Int.toNat_ofNat, hk]

theorem Remove_perm (q : Queue) (k : Nat) (x : Job) (hk : q.h[k]? = some x) :
    ∃ r, q.Remove (k : Int) = some (reservedJobsItem.Index x (-1), r) ∧
      (q.h.map unslot).Perm (unslot x :: r.h.map unslot) := by
  refine ⟨_, Remove_eq q k x hk, ?_⟩
  have hcut : (q.h.map unslot).Perm
      (unslot x :: ((q.h.set k (q.h.getLastD x)).dropLast).map unslot) := by
    have := cut_perm (q.h.map unslot) k (unslot x) (by simp [hk])
    rw [List.getLastD_map] at this
    rw [List.map_dropLast, List.map_set]
    exact this
  dsimp only
  split_ifs
  · exact hcut.trans (((up_perm _ _ _).trans (down_perm _ _ _)).symm.cons _)
  · exact hcut

theorem cut_ordered {h : List Job} {x last : Job} (hk : h[h.length - 1]? = some x)
    (hlast : h[h.length - 1]? = some last) (ho : Ordered h) :
    Ordered ((h.set (h.length - 1) (h.getLastD x)).dropLast) := by
  intro j a p hja hjp
  rw [cut_keyAt hk hlast] at hja hjp
  split_ifs at hja hjp <;> first | omega | cases hja | exact ho j a p hja hjp

theorem Remove_valid (q : Queue) (k : Nat) (x : Job) (r : Queue) (hk : q.h[k]? = some x)
    (hr : q.Remove (k : Int) = some (reservedJobsItem.Index x (-1), r))
    (ho : Ordered q.h) (hs : SlotsOK q.h) : Ordered r.h ∧ SlotsOK r.h := by
  rw [Remove_eq q k x hk] at hr
  cases hr
  have hkl := lt_length_of_getElem? hk
  obtain ⟨last, hlast⟩ := getElem?_of_lt (show q.h.length - 1 < q.h.length by omega)
  have hK := cut_keyAt hk hlast
  have hG := cut_getElem? hk hlast
  have hL := cut_length q.h k x
  have hkx := keyAt_eq_some hk
  dsimp only
  split_ifs with hkn
  · -- an inner slot: the last element takes it
    have hbut : SlotsOKBut ((q.h.set k (q.h.getLastD x)).dropLast) k := by
      intro j a hj hja
      rw [hG] at hja
      split_ifs at hja
      exact hs j a hja
    have hck : ((q.h.set k (q.h.getLastD x)).dropLast)[k]? = some last := by
      rw [hG, if_pos hkn, if_pos rfl]
    have hbr : Bridged ((q.h.set k (q.h.getLastD x)).dropLast) k := by
      intro hk0 c a g hc hc0 hca hcg
      rw [hK] at hca hcg
      rw [if_pos (by omega), if_neg (by omega)] at hcg
      split_ifs at hca with h1 h2
      · omega
      · have h3 := ho k _ g hkx hcg
        have h4 := ho c a _ hca (by rw [hc]; exact hkx)
        omega
    by_cases hB : 0 < k ∧ ∃ g, keyAt q.h ((k - 1) / 2) = some g ∧ last.reserveEndsAt < g
    · -- the last element expires before the parent of the slot: only `up` moves it
      obtain ⟨hk0, g, hg, hlt⟩ := hB
      have hpx := ho k _ g hkx hg
      have hdown : down (q.h.length - 1) ((q.h.set k (q.h.getLastD x)).dropLast) k =
          ((q.h.set k (q.h.getLastD x)).dropLast).set k (reservedJobsItem.Index last k) := by
        obtain ⟨m, hm⟩ : ∃ m, q.h.length - 1 = m + 1 := ⟨q.h.length - 2, by omega⟩
        rw [hm]
        apply down_of_lt _ _ _ _ hck
        intro d a hd hda
        rw [hK] at hda
        split_ifs at hda with h1 h2
        · omega
        · have := ho d a _ hda (by rw [show (d - 1) / 2 = k by omega]; exact hkx)
          omega
      rw [hdown]
      have hlen : k < (((q.h.set k (q.h.getLastD x)).dropLast).set k
          (reservedJobsItem.Index last k)).length := by
        rw [List.length_set, hL]; exact hkn
      constructor
      · apply up_ordered _ _ _ hlen (by omega)
        constructor
        · intro j hj a p hja hjp
          rw [keyAt_set_Index hck, hK] at hja hjp
          have hjn : j < q.h.length - 1 := by
            by_contra hcon
            rw [if_neg hcon] at hja
            cases hja
          rw [if_pos hjn, if_neg hj] at hja
          rw [if_pos (by omega)] at hjp
          by_cases h3 : (j - 1) / 2 = k
          · rw [if_pos h3] at hjp
            cases hjp
            have := ho j a _ hja (by rw [h3]; exact hkx)
            omega
          · rw [if_neg h3] at hjp
            exact ho j a p hja hjp
        · intro hk0 c a g2 hc hc0 hca hcg
          rw [keyAt_set_Index hck] at hca hcg
          exact hbr hk0 c a g2 hc hc0 hca hcg
      · apply up_slots _ _ _ hlen (by omega)
        intro j a hj hja
        rw [List.getElem?_set_ne (Ne.symm hj)] at hja
        exact hbut j a hj hja
    · -- otherwise `down` restores the order and `up` finds it restored
      have hdi : DownInv ((q.h.set k (q.h.getLastD x)).dropLast) k := by
        refine ⟨?_, hbr⟩
        intro j hj a p hja hjp
        rw [hK] at hja hjp
        have hjn : j < q.h.length - 1 := by
          by_contra hcon
          rw [if_neg hcon] at hja
          cases hja
        rw [if_pos hjn] at hja
        rw [if_pos (by omega), if_neg hj] at hjp
        by_cases h2 : j = k
        · rw [if_pos h2] at hja
          cases hja
          by_contra hcon
          exact hB ⟨by omega, p, by rw [← h2]; exact hjp, by omega⟩
        · rw [if_neg h2] at hja
          exact ho j a p hja hjp
      have hlen1 : k < ((q.h.set k (q.h.getLastD x)).dropLast).length := by
        rw [hL]; exact hkn
      have hod := down_ordered (q.h.length - 1) _ k hlen1 (by rw [hL]; omega) hdi
      have hsd := down_slots (q.h.length - 1) _ k hlen1 (by rw [hL]; omega) hbut
      have hlen2 :
          k < (down (q.h.length - 1) ((q.h.set k (q.h.getLastD x)).dropLast) k).length := by
        rw [down_length]; exact hlen1
      exact ⟨up_ordered _ _ _ hlen2 (by omega) (upInv_of_ordered hod k),
        up_slots _ _ _ hlen2 (by omega) (slotsOKBut_of_slotsOK hsd k)⟩
  · -- the last slot: it is cut off
    have hkeq : k = q.h.length - 1 := by omega
    subst hkeq
    constructor
    · exact cut_ordered hk hlast ho
    · intro j a hja
      rw [hG] at hja
      split_ifs at hja with h1 h2
      · omega
      · exact hs j a hja

/-- What `Pop` leaves and returns, for a non-empty slice. -/
theorem Pop_eq (q : Queue) (x : Job) (hx : q.h[0]? = some x) :
    q.Pop = some (reservedJobsItem.Index x (-1),
      { h := if 0 < q.h.length - 1 then
          down (q.h.length - 1) ((q.h.set 0 (q.h.getLastD x)).dropLast) 0
        else (q.h.set 0 (q.h.getLastD x)).dropLast }) := by
  unfold Queue.Pop
  simp only [hx]

theorem Pop_perm (q : Queue) (x : Job) (hx : q.h[0]? = some x) :
    ∃ r, q.Pop = some (reservedJobsItem.Index x (-1), r) ∧
      (q.h.map unslot).Perm (unslot x :: r.h.map unslot) := by
  refine ⟨_, Pop_eq q x hx, ?_⟩
  have hcut : (q.h.map unslot).Perm
      (unslot x :: ((q.h.set 0 (q.h.getLastD x)).dropLast).map unslot) := by
    have := cut_perm (q.h.map unslot) 0 (unslot x) (by simp [hx])
    rw [List.getLastD_map] at this
    rw [List.map_dropLast, List.map_set]
    exact this
  dsimp only
  split_ifs
  · exact hcut.trans ((down_perm _ _ _).symm.cons _)
  · exact hcut

theorem Pop_valid (q : Queue) (x : Job) (r : Queue) (hx : q.h[0]? = some x)
    (hr : q.Pop = some (reservedJobsItem.Index x (-1), r))
    (ho : Ordered q.h) (hs : SlotsOK q.h) : Ordered r.h ∧ SlotsOK r.h := by
  rw [Pop_eq q x hx] at hr
  cases hr
  have hkl := lt_length_of_getElem? hx
  obtain ⟨last, hlast⟩ := getElem?_of_lt (show q.h.length - 1 < q.h.length by omega)
  have hK := cut_keyAt hx hlast
  have hG := cut_getElem? hx hlast
  have hL := cut_length q.h 0 x
  dsimp only
  split_ifs with hn
  · have hlen1 : 0 < ((q.h.set 0 (q.h.getLastD x)).dropLast).length := by
      rw [hL]; exact hn
    constructor
    · apply down_ordered _ _ _ hlen1 (by rw [hL]; omega)
      refine ⟨?_, fun h0 => absurd h0 (lt_irrefl 0)⟩
      intro j hj a p hja hjp
      rw [hK] at hja hjp
      have hjn : j < q.h.length - 1 := by
        by_contra hcon
        rw [if_neg hcon] at hja
        cases hja
      rw [if_pos hjn, if_neg (by omega)] at hja
      rw [if_pos (by omega), if_neg hj] at hjp
      exact ho j a p hja hjp
    · apply down_slots _ _ _ hlen1 (by rw [hL]; omega)
      intro j a hj hja
      rw [hG] at hja
      split_ifs at hja
      exact hs j a hja
  · have hnil : (q.h.set 0 (q.h.getLastD x)).dropLast = [] :=
      List.eq_nil_of_length_eq_zero (by rw [hL]; omega)
    rw [hnil]
    constructor
    · intro j a p hja _
      simp [keyAt] at hja
    · intro j a hja
      simp at hja

end prio

/-! ## The reserved set -/

theorem map_id_unslot (l : List Job) : (l.map prio.unslot).map Job.id = l.map Job.id := by
  rw [List.map_map]
  rfl

/-- When a set holds the jobs of another and the job `x`, so do the pointers. -/
theorem ids_perm {jobs rest : reservedJobs} {x : Job}
    (hperm : (jobs.h.map prio.unslot).Perm (prio.unslot x :: rest.h.map prio.unslot)) :
    jobs.ids.Perm (x.id :: rest.ids) := by
  have hids := hperm.map Job.id
  rw [map_id_unslot, List.map_cons, map_id_unslot] at hids
  exact hids

theorem perm_length_succ {jobs rest : reservedJobs} {x : Job}
    (hperm : (jobs.h.map prio.unslot).Perm (prio.unslot x :: rest.h.map prio.unslot)) :
    rest.Len + 1 = jobs.Len := by
  have := hperm.length_eq
  simp at this
  unfold prio.Queue.Len
  omega

theorem not_mem_ids_of_perm {jobs rest : reservedJobs} {x : Job} (hn : jobs.ids.Nodup)
    (hperm : (jobs.h.map prio.unslot).Perm (prio.unslot x :: rest.h.map prio.unslot)) :
    x.id ∉ rest.ids :=
  (List.nodup_cons.mp ((ids_perm hperm).nodup_iff.mp hn)).1

theorem nodup_of_perm {jobs rest : reservedJobs} {x : Job} (hn : jobs.ids.Nodup)
    (hperm : (jobs.h.map prio.unslot).Perm (prio.unslot x :: rest.h.map prio.unslot)) :
    rest.ids.Nodup :=
  (List.nodup_cons.mp ((ids_perm hperm).nodup_iff.mp hn)).2

theorem putJob_perm (jobs : reservedJobs) (job : Job) :
    ((jobs.putJob job).h.map prio.unslot).Perm
      (prio.unslot { job with jobHolder := some Holder.reserved } :: jobs.h.map prio.unslot) :=
  prio.Push_perm jobs.toQueue _

theorem putJob_ids (jobs : reservedJobs) (job : Job) :
    (jobs.putJob job).ids.Perm (job.id :: jobs.ids) :=
  ids_perm (x := { job with jobHolder := some Holder.reserved }) (putJob_perm jobs job)

theorem putJob_Len (jobs : reservedJobs) (job : Job) : (jobs.putJob job).Len = jobs.Len + 1 :=
  prio.Push_length jobs.toQueue _

theorem putJob_inv (jobs : reservedJobs) (job : Job) (inv : jobs.Inv) :
    (jobs.putJob job).Inv where
  ordered := prio.Push_ordered jobs.toQueue _ inv.ordered
  slots := prio.Push_slots jobs.toQueue _ inv.slots

theorem newReservedJobs_inv : newReservedJobs.Inv where
  ordered := by intro k a p hka _; simp [newReservedJobs, prio.keyAt] at hka
  slots := by intro k a hka; simp [newReservedJobs] at hka

/-- What `getJob` does on a non-empty reserved set that satisfies the
invariant. -/
theorem getJob_spec (jobs : reservedJobs) (inv : jobs.Inv) (hne : 0 < jobs.Len) :
    ∃ x rest, jobs.h[0]? = some x ∧
      jobs.getJob = some ({ x with index := -1, jobHolder := none }, rest) ∧
      (jobs.h.map prio.unslot).Perm (prio.unslot x :: rest.h.map prio.unslot) ∧
      (∀ k ∈ jobs.h, x.reserveEndsAt ≤ k.reserveEndsAt) ∧ rest.Inv := by
  obtain ⟨x, hx⟩ := prio.getElem?_of_lt (show 0 < jobs.h.length from hne)
  obtain ⟨r, hr, hperm⟩ := prio.Pop_perm jobs.toQueue x hx
  obtain ⟨ho, hs⟩ := prio.Pop_valid jobs.toQueue x r hx hr inv.ordered inv.slots
  refine ⟨x, { toQueue := r }, hx, ?_, hperm, ?_, ⟨ho, hs⟩⟩
  · unfold reservedJobs.getJob
    rw [hr]
    rfl
  · intro k hk
    obtain ⟨n, hn⟩ := List.getElem?_of_mem hk
    exact prio.root_le inv.ordered _ (prio.keyAt_eq_some hx) n _ (prio.keyAt_eq_some hn)

theorem getJob_none_of_empty (jobs : reservedJobs) (hlen : ¬ 0 < jobs.Len) :
    jobs.getJob = none := by
  have hnil : jobs.h = [] := List.eq_nil_of_length_eq_zero (by
    unfold prio.Queue.Len at hlen; omega)
  simp [reservedJobs.getJob, prio.Queue.Pop, hnil]

/-- What `deleteJob` does for a job of a reserved set that satisfies the
invariant. -/
theorem deleteJob_spec (jobs : reservedJobs) (inv : jobs.Inv) (job : Job)
    (hmem : job ∈ jobs.h) :
    ∃ rest, jobs.deleteJob job = some rest ∧
      (jobs.h.map prio.unslot).Perm (prio.unslot job :: rest.h.map prio.unslot) ∧
      rest.Inv := by
  obtain ⟨k, hk⟩ := List.getElem?_of_mem hmem
  have hidx := inv.slots k job hk
  obtain ⟨r, hr, hperm⟩ := prio.Remove_perm jobs.toQueue k job hk
  obtain ⟨ho, hs⟩ := prio.Remove_valid jobs.toQueue k job r hk hr inv.ordered inv.slots
  refine ⟨{ toQueue := r }, ?_, hperm, ⟨ho, hs⟩⟩
  unfold reservedJobs.deleteJob
  rw [hidx, hr]

/-- Along later calls the invariant holds and a job that is not put back
stays out. -/
theorem later_inv (id : Nat) (start jobs : reservedJobs)
    (hl : reservedJobs.Later id start jobs) (inv : start.Inv) (hid : id ∉ start.ids) :
    jobs.Inv ∧ id ∉ jobs.ids := by
  induction hl with
  | here => exact ⟨inv, hid⟩
  | put job _ _ hne ih =>
    refine ⟨putJob_inv _ job ih.1, ?_⟩
    intro hmem
    rcases List.mem_cons.mp ((putJob_ids _ job).mem_iff.mp hmem) with h | h
    · exact hne h.symm
    · exact ih.2 h
  | @get jobs rest job _ hget ih =>
    by_cases hlen : 0 < jobs.Len
    · obtain ⟨x, rest2, _, hg, hperm, _, hinv⟩ := getJob_spec jobs ih.1 hlen
      rw [hget] at hg
      cases hg
      exact ⟨hinv, fun hmem =>
        ih.2 ((ids_perm hperm).mem_iff.mpr (List.mem_cons_of_mem _ hmem))⟩
    · rw [getJob_none_of_empty jobs hlen] at hget
      cases hget
  | @delete jobs rest job _ hmem hdel ih =>
    obtain ⟨rest2, hd, hperm, hinv⟩ := deleteJob_spec jobs ih.1 job hmem
    rw [hdel] at hd
    cases hd
    exact ⟨hinv, fun hm => ih.2 ((ids_perm hperm).mem_iff.mpr (List.mem_cons_of_mem _ hm))⟩

/-- A reserved set built by the three calls satisfies the invariant and
holds no job twice. -/
theorem built_inv (jobs : reservedJobs) (hb : jobs.Built) : jobs.Inv ∧ jobs.ids.Nodup := by
  induction hb with
  | new => exact ⟨newReservedJobs_inv, List.nodup_nil⟩
  | put job _ hnew ih =>
    exact ⟨putJob_inv _ job ih.1,
      (putJob_ids _ job).nodup_iff.mpr (List.nodup_cons.mpr ⟨hnew, ih.2⟩)⟩
  | @get jobs rest job _ hget ih =>
    by_cases hlen : 0 < jobs.Len
    · obtain ⟨x, rest2, _, hg, hperm, _, hinv⟩ := getJob_spec jobs ih.1 hlen
      rw [hget] at hg
      cases hg
      exact ⟨hinv, nodup_of_perm ih.2 hperm⟩
    · rw [getJob_none_of_empty jobs hlen] at hget
      cases hget
  | @delete jobs rest job _ hmem hdel ih =>
    obtain ⟨rest2, hd, hperm, hinv⟩ := deleteJob_spec jobs ih.1 job hmem
    rw [hdel] at hd
    cases hd
    exact ⟨hinv, nodup_of_perm ih.2 hperm⟩

theorem foldl_putJob_inv (js : List Job) (start : reservedJobs) (inv : start.Inv) :
    (js.foldl reservedJobs.putJob start).Inv ∧
      (js.foldl reservedJobs.putJob start).Len = start.Len + js.length ∧
      (js.foldl reservedJobs.putJob start).ids.Perm (start.ids ++ js.map Job.id) := by
  induction js generalizing start with
  | nil => exact ⟨inv, rfl, by simp⟩
  | cons j js ih =>
    obtain ⟨hinv, hlen, hids⟩ := ih (start.putJob j) (putJob_inv start j inv)
    refine ⟨hinv, ?_, ?_⟩
    · rw [List.foldl_cons, hlen, putJob_Len, List.length_cons]
      omega
    · rw [List.foldl_cons, List.map_cons]
      refine hids.trans (((putJob_ids start j).append_right _).trans ?_)
      exact List.perm_middle.symm

theorem build_inv (js : List Job) :
    (reservedJobs.build js).Inv ∧ (reservedJobs.build js).Len = js.length ∧
      (reservedJobs.build js).ids.Perm (js.map Job.id) := by
  obtain ⟨hinv, hlen, hids⟩ := foldl_putJob_inv js newReservedJobs newReservedJobs_inv
  refine ⟨hinv, ?_, ?_⟩
  · rw [reservedJobs.build, hlen]
    simp [newReservedJobs, prio.Queue.Len]
  · simpa [reservedJobs.ids, newReservedJobs] using hids

/-! ## The ready queue and the tube -/

theorem popLowest_none (l : List Job) (h : popLowest l = none) : l = [] := by
  cases l with
  | nil => rfl
  | cons j t =>
    unfold popLowest at h
    split at h
    · cases h
    · split_ifs at h

theorem popLowest_perm (l : List Job) (m : Job) (rest : List Job)
    (h : popLowest l = some (m, rest)) : l.Perm (m :: rest) := by
  induction l generalizing m rest with
  | nil => simp [popLowest] at h
  | cons j t ih =>
    unfold popLowest at h
    split at h
    · rename_i hnone
      cases h
      rw [popLowest_none t hnone]
    · rename_i m2 others hsome
      split_ifs at h
      · cases h
        exact ((ih m others hsome).cons j).trans (List.Perm.swap _ _ _)
      · cases h
        exact List.Perm.refl _

/-- The job that `popLowest` returns has the least priority value of the
list. -/
theorem popLowest_least (l : List Job) (m : Job) (rest : List Job)
    (h : popLowest l = some (m, rest)) : ∀ j ∈ l, m.priority ≤ j.priority := by
  induction l generalizing m rest with
  | nil => simp [popLowest] at h
  | cons j t ih =>
    unfold popLowest at h
    split at h
    · rename_i hnone
      cases h
      rw [popLowest_none t hnone]
      intro k hk
      rw [List.mem_singleton.mp hk]
    · rename_i m2 others hsome
      have hm2 := ih m2 others hsome
      split_ifs at h with hlt
      · cases h
        intro k hk
        rcases List.mem_cons.mp hk with hkj | hkt
        · rw [hkj]; omega
        · exact hm2 k hkt
      · cases h
        intro k hk
        rcases List.mem_cons.mp hk with hkj | hkt
        · rw [hkj]
        · have := hm2 k hkt
          omega

theorem popLowest_isSome (l : List Job) (hne : l ≠ []) :
    ∃ m rest, popLowest l = some (m, rest) := by
  cases l with
  | nil => exact absurd rfl hne
  | cons j t =>
    unfold popLowest
    split
    · exact ⟨_, _, rfl⟩
    · split_ifs
      · exact ⟨_, _, rfl⟩
      · exact ⟨_, _, rfl⟩

/-- What `reserve` does on a tube whose ready queue is not empty. -/
theorem reserve_spec (tube : Tube) (hne : 0 < tube.ready.Len) :
    ∃ job others, popLowest tube.ready.items = some (job, others) ∧
      tube.reserve = some (job,
        { tube with
          ready := { items := others }
          statReady := (others.length : Int)
          reserved := { toQueue := tube.reserved.toQueue.Push job }
          statReserved := ((tube.reserved.toQueue.Push job).Len : Int) }) := by
  have hnil : tube.ready.items ≠ [] := by
    intro h
    simp [readyJobs.Len, h] at hne
  obtain ⟨job, others, hp⟩ := popLowest_isSome _ hnil
  refine ⟨job, others, hp, ?_⟩
  simp [Tube.reserve, readyJobs.heapPop, hp, readyJobs.Len]

theorem reserve_none (tube : Tube) (hz : tube.ready.Len = 0) : tube.reserve = none := by
  have hnil : tube.ready.items = [] := List.eq_nil_of_length_eq_zero hz
  simp [Tube.reserve, readyJobs.heapPop, hnil, popLowest]

theorem put_statsFresh (t : Tube) (job : Job) (h : t.StatsFresh) : (t.put job).StatsFresh := by
  unfold Tube.put
  split_ifs
  · exact ⟨rfl, h.2⟩
  · exact ⟨rfl, h.2⟩

theorem apply_statsFresh (t u : Tube) (op : TubeOp) (h : t.StatsFresh)
    (hu : t.apply op = some u) : u.StatsFresh := by
  cases op with
  | put job =>
    simp only [Tube.apply, Option.some.injEq] at hu
    subst hu
    exact put_statsFresh t job h
  | reserve =>
    by_cases hne : 0 < t.ready.Len
    · obtain ⟨job, others, _, hr⟩ := reserve_spec t hne
      simp only [Tube.apply, hr, Option.map_some', Option.some.injEq] at hu
      subst hu
      exact ⟨rfl, rfl⟩
    · rw [Tube.apply, reserve_none t (by omega)] at hu
      cases hu

theorem applyAll_statsFresh (ops : List TubeOp) (t u : Tube) (h : t.StatsFresh)
    (hu : t.applyAll ops = some u) : u.StatsFresh := by
  induction ops generalizing t with
  | nil =>
    simp only [Tube.applyAll, Option.some.injEq] at hu
    subst hu
    exact h
  | cons op ops ih =>
    unfold Tube.applyAll at hu
    split at hu
    · cases hu
    · rename_i t1 h1
      exact ih t1 (apply_statsFresh t t1 op h h1) hu

theorem applyAll_take (ops : List TubeOp) (t : Tube) (h : (t.applyAll ops).isSome = true)
    (n : Nat) : ((t.applyAll (ops.take n)).isSome = true) := by
  induction ops generalizing t n with
  | nil => simpa using h
  | cons op ops ih =>
    cases n with
    | zero => rfl
    | succ n =>
      rw [List.take_succ_cons]
      unfold Tube.applyAll at h ⊢
      split at h
      · cases h
      · rename_i t1 h1
        exact ih t1 h n

/-! ## The claims -/

/-- C1, evaluated on the code: the tube holds one ready job, a request is
admitted and the cancel branch of the inner `select` proceeds; `reserve` has run all the
same: the ready queue lost its job to the reserved set and `statReady`,
`statReserved` changed with it. -/
theorem cancel_branch_consumes_job :
    0 < oneJobTube.ready.Len ∧ oneJobTube.statReady = 1 ∧ oneJobTube.statReserved = 0 ∧
      oneJobTube.reserved.Len = 0 ∧
      ∃ t, oneJobTube.handleDemand (Event.demand true) =
          Iteration.demanded t (sampleJob 1 10 7) false ∧
        t.ready.Len = 0 ∧ t.reserved.Len = 1 ∧ t.statReady = 0 ∧ t.statReserved = 1 :=
  ⟨by decide, by decide, by decide, by decide, _, rfl, by decide, by decide, by decide,
    by decide⟩

/-- C2, evaluated on the code: a fresh tube, `put` of one job of priority 10,
then `reserve`: the ready queue is empty, so it holds no urgent job, and
`statUrgent` is still 1. -/
theorem statUrgent_stale_after_reserve :
    ((newTube "default").applyAll [TubeOp.put (sampleJob 1 10 7), TubeOp.reserve]).map
      (fun t => (t.statUrgent, t.urgentReady, t.ready.Len)) = some (1, 0, 0) := by
  decide

/-- C3 as stated fails: `reserve` performed at instant 100 for a ttl of 60
on the tube whose one ready job has `reserveEndsAt = 7` returns the job with
`reserveEndsAt = 7`, not `100 + 60`. -/
theorem reserve_deadline_counterexample :
    0 < oneJobTube.ready.Len ∧
      ∃ job t, oneJobTube.reserve = some (job, t) ∧ job.reserveEndsAt = 7 ∧
        job.reserveEndsAt ≠ 100 + 60 ∧ t.reserved.h.map Job.reserveEndsAt = [7] :=
  ⟨by decide, _, _, rfl, by decide, by decide, by decide⟩

/-- C3, amended: for every tube with a non-empty ready queue, `reserve`
(which is given no instant and no ttl) returns a job of the ready queue as it
stood there, `reserveEndsAt` included, and pushes that job into the reserved
set: the reserved set afterwards holds the jobs it held and the returned
job, each unchanged but for its slot. -/
theorem reserve_keeps_deadline (tube : Tube) (hne : 0 < tube.ready.Len) :
    ∃ job t, tube.reserve = some (job, t) ∧ job ∈ tube.ready.items ∧
      (t.reserved.h.map prio.unslot).Perm
        (prio.unslot job :: tube.reserved.h.map prio.unslot) ∧
      ∃ k ∈ t.reserved.h, k.id = job.id ∧ k.reserveEndsAt = job.reserveEndsAt := by
  obtain ⟨job, others, hp, hr⟩ := reserve_spec tube hne
  have hperm := prio.Push_perm tube.reserved.toQueue job
  refine ⟨job, _, hr, ?_, hperm, ?_⟩
  · exact (popLowest_perm _ _ _ hp).mem_iff.mpr (List.mem_cons_self _ _)
  · have hmem : prio.unslot job ∈ (tube.reserved.toQueue.Push job).h.map prio.unslot :=
      hperm.mem_iff.mpr (List.mem_cons_self _ _)
    obtain ⟨k, hk, hku⟩ := List.mem_map.mp hmem
    refine ⟨k, hk, ?_, ?_⟩
    · have := congrArg Job.id hku
      exact this
    · have := congrArg Job.reserveEndsAt hku
      exact this

/-- C3, amended, at the tube with one ready job. -/
theorem reserve_keeps_deadline_witness :
    ∃ job t, oneJobTube.reserve = some (job, t) ∧ job ∈ oneJobTube.ready.items ∧
      (t.reserved.h.map prio.unslot).Perm
        (prio.unslot job :: oneJobTube.reserved.h.map prio.unslot) ∧
      ∃ k ∈ t.reserved.h, k.id = job.id ∧ k.reserveEndsAt = job.reserveEndsAt :=
  reserve_keeps_deadline oneJobTube (by decide)

/-- C4 as stated fails: at instant 0 the job `delayedSample` has its
`delayEndsAt = 100` strictly after now, and `put` on a fresh tube pushes it
onto the ready queue and sets `statReady` to 1; the delayed set stays
empty. -/
theorem put_delayed_counterexample :
    (0 : Int) < delayedSample.delayEndsAt ∧
      ((newTube "default").put delayedSample).ready.items = [delayedSample] ∧
      (newTube "default").ready.items = [] ∧
      ((newTube "default").put delayedSample).statReady = 1 ∧
      (newTube "default").statReady = 0 ∧
      ((newTube "default").put delayedSample).delayed.count = 0 := by
  decide

/-- C4, amended: for every tube and every job, whatever the job's
`delayEndsAt` and the instant, `put` pushes the job onto the ready queue,
sets `statReady` to the new length, and leaves the delayed set, the reserved
set and the buried list as they were. -/
theorem put_always_ready (tube : Tube) (job : Job) :
    (tube.put job).ready.items = tube.ready.items ++ [job] ∧
      (tube.put job).statReady = (tube.ready.Len : Int) + 1 ∧
      (tube.put job).delayed = tube.delayed ∧
      (tube.put job).reserved = tube.reserved ∧
      (tube.put job).buried = tube.buried := by
  unfold Tube.put
  split_ifs <;> simp [readyJobs.heapPush, readyJobs.Len]

/-- C5: for every non-empty reserved set built by `putJob` calls, `getJob`
returns normally a job `x` of the set, with its slot set to -1 and its
`jobHolder` nil; no job of the set has an earlier `reserveEndsAt`; the set
afterwards is one shorter and holds exactly the other jobs, each unchanged
but for its slot; when the jobs put were distinct the returned job is no
longer in the set. -/
theorem getJob_earliest (js : List Job) (hne : js ≠ []) :
    ∃ x job rest, (reservedJobs.build js).getJob = some (job, rest) ∧
      x ∈ (reservedJobs.build js).h ∧
      job = { x with index := -1, jobHolder := none } ∧
      (∀ k ∈ (reservedJobs.build js).h, job.reserveEndsAt ≤ k.reserveEndsAt) ∧
      rest.Len + 1 = (reservedJobs.build js).Len ∧
      ((reservedJobs.build js).h.map prio.unslot).Perm
        (prio.unslot x :: rest.h.map prio.unslot) ∧
      job.jobHolder = none ∧
      ((js.map Job.id).Nodup → job.id ∉ rest.ids) := by
  obtain ⟨inv, hlen, hids⟩ := build_inv js
  have hpos : 0 < (reservedJobs.build js).Len := by
    rw [hlen]
    exact List.length_pos.mpr hne
  obtain ⟨x, rest, hx, hg, hperm, hmin, _⟩ := getJob_spec _ inv hpos
  have hnot : (js.map Job.id).Nodup → x.id ∉ rest.ids :=
    fun hd => not_mem_ids_of_perm (hids.nodup_iff.mpr hd) hperm
  exact ⟨x, _, rest, hg, List.getElem?_mem hx, rfl, hmin, perm_length_succ hperm,
    hperm, rfl, hnot⟩

/-- C5, at the reserved set built from three jobs with the deadlines 50, 30
and 40. -/
theorem getJob_earliest_witness :
    ∃ x job rest, (reservedJobs.build threeJobs).getJob = some (job, rest) ∧
      x ∈ (reservedJobs.build threeJobs).h ∧
      job = { x with index := -1, jobHolder := none } ∧
      (∀ k ∈ (reservedJobs.build threeJobs).h, job.reserveEndsAt ≤ k.reserveEndsAt) ∧
      rest.Len + 1 = (reservedJobs.build threeJobs).Len ∧
      ((reservedJobs.build threeJobs).h.map prio.unslot).Perm
        (prio.unslot x :: rest.h.map prio.unslot) ∧
      job.jobHolder = none ∧
      ((threeJobs.map Job.id).Nodup → job.id ∉ rest.ids) :=
  getJob_earliest threeJobs (by decide)

/-- C6: for every reserved set built by `putJob`, `getJob` and `deleteJob`
calls and every job it holds, `deleteJob(job)` returns normally; the set
afterwards is one shorter, does not hold the job, holds exactly the other
jobs, each unchanged but for its slot; and no `getJob` on any set that comes
after it (by further calls that do not put the job back) returns the deleted
job. -/
theorem deleteJob_removes (jobs : reservedJobs) (job : Job) (hb : jobs.Built)
    (hmem : job ∈ jobs.h) :
    ∃ rest, jobs.deleteJob job = some rest ∧ rest.Len + 1 = jobs.Len ∧ job.id ∉ rest.ids ∧
      (jobs.h.map prio.unslot).Perm (prio.unslot job :: rest.h.map prio.unslot) ∧
      ∀ later got after, reservedJobs.Later job.id rest later →
        later.getJob = some (got, after) → got.id ≠ job.id := by
  obtain ⟨inv, hnd⟩ := built_inv jobs hb
  obtain ⟨rest, hd, hperm, hinv⟩ := deleteJob_spec jobs inv job hmem
  have hnot := not_mem_ids_of_perm hnd hperm
  refine ⟨rest, hd, perm_length_succ hperm, hnot, hperm, ?_⟩
  intro later got after hl hg heq
  obtain ⟨linv, lnot⟩ := later_inv job.id rest later hl hinv hnot
  by_cases hlen : 0 < later.Len
  · obtain ⟨x, rest2, hx, hg2, _, _, _⟩ := getJob_spec later linv hlen
    rw [hg] at hg2
    cases hg2
    apply lnot
    have : x.id = job.id := heq
    rw [← this]
    exact List.mem_map_of_mem Job.id (List.getElem?_mem hx)
  · rw [getJob_none_of_empty later hlen] at hg
    cases hg

/-- C6, at the reserved set built from three jobs: the job at slot 1 is
deleted. -/
theorem deleteJob_removes_witness :
    ∃ rest, threeSet.deleteJob heldJob = some rest ∧ rest.Len + 1 = threeSet.Len ∧
      heldJob.id ∉ rest.ids ∧
      (threeSet.h.map prio.unslot).Perm (prio.unslot heldJob :: rest.h.map prio.unslot) ∧
      ∀ later got after, reservedJobs.Later heldJob.id rest later →
        later.getJob = some (got, after) → got.id ≠ heldJob.id :=
  deleteJob_removes threeSet heldJob
    (reservedJobs.Built.put _ (reservedJobs.Built.put _ (reservedJobs.Built.put _
      reservedJobs.Built.new (by decide)) (by decide)) (by decide))
    (by decide)

/-- C7, evaluated on the code: one job was placed by `putJob` and its timer
is pending, so the delayed set holds one job; `kickJobs(1)` returns 0, not
`min(1, 1) = 1`, and moves nothing. -/
theorem kickJobs_returns_zero :
    (newDelayedJobs.putJob delayedSample 0).count = 1 ∧
      ((newDelayedJobs.putJob delayedSample 0).kickJobs 1).1 = 0 ∧
      ((newDelayedJobs.putJob delayedSample 0).kickJobs 1).2 =
        newDelayedJobs.putJob delayedSample 0 ∧
      (newDelayedJobs.putJob delayedSample 0).Len = 0 := by
  decide

/-- C8: from a freshly created (empty) tube, along every finite sequence of
`put` and `reserve` operations that runs without `reserve` meeting an empty
ready queue, after each operation (after the first `n` operations, for every
`n`) `statReady` is the length of the ready queue and `statReserved` is the
length of the reserved set. -/
theorem stats_follow_holders (name : String) (ops : List TubeOp)
    (hok : ((newTube name).applyAll ops).isSome = true) (n : Nat) :
    ∃ t, (newTube name).applyAll (ops.take n) = some t ∧
      t.statReady = (t.ready.Len : Int) ∧ t.statReserved = (t.reserved.Len : Int) := by
  obtain ⟨t, ht⟩ := Option.isSome_iff_exists.mp (applyAll_take ops _ hok n)
  exact ⟨t, ht, applyAll_statsFresh _ _ t ⟨rfl, rfl⟩ ht⟩

/-- C8, at a concrete run: put, put, reserve, and the state after the first
two and after all three operations. -/
theorem stats_follow_holders_witness :
    (∃ t, (newTube "default").applyAll
        ([TubeOp.put (sampleJob 1 10 7), TubeOp.put (sampleJob 2 5 9), TubeOp.reserve].take 3)
          = some t ∧
      t.statReady = (t.ready.Len : Int) ∧ t.statReserved = (t.reserved.Len : Int)) :=
  stats_follow_holders "default"
    [TubeOp.put (sampleJob 1 10 7), TubeOp.put (sampleJob 2 5 9), TubeOp.reserve]
    (by decide) 3

/-- C9: whatever the channels offer, in whatever order, the loop of
`handleDemand` started on a fresh tube never panics, and in the state it
reaches an iteration calls `reserve` only on a non-empty ready queue (where
the pop succeeds); while the ready queue is empty a request is not received
and a job arrival is. -/
theorem reserve_only_when_ready (name : String) (events : List Event) :
    ∃ t, (newTube name).run events = some t ∧
      ∀ e, t.handleDemand e ≠ Iteration.panicked ∧
        (∀ u job granted, t.handleDemand e = Iteration.demanded u job granted →
          0 < t.ready.Len ∧ t.reserve = some (job, u)) ∧
        (t.ready.Len = 0 →
          (∀ c, t.handleDemand (Event.demand c) = Iteration.waiting) ∧
          ∀ job, t.handleDemand (Event.supply job) = Iteration.supplied (t.put job)) := by
  have step : ∀ (t : Tube) (e : Event), t.handleDemand e ≠ Iteration.panicked ∧
      (∀ u job granted, t.handleDemand e = Iteration.demanded u job granted →
        0 < t.ready.Len ∧ t.reserve = some (job, u)) ∧
      (t.ready.Len = 0 →
        (∀ c, t.handleDemand (Event.demand c) = Iteration.waiting) ∧
        ∀ job, t.handleDemand (Event.supply job) = Iteration.supplied (t.put job)) := by
    intro t e
    refine ⟨?_, ?_, ?_⟩
    · unfold Tube.handleDemand
      split_ifs with hne
      · cases e with
        | supply job => simp
        | demand c =>
          obtain ⟨job, others, _, hr⟩ := reserve_spec t hne
          simp [hr]
      · cases e <;> simp
    · intro u job granted hd
      unfold Tube.handleDemand at hd
      split_ifs at hd with hne
      · cases e with
        | supply job => simp at hd
        | demand c =>
          obtain ⟨job2, others, _, hr⟩ := reserve_spec t hne
          simp only [hr] at hd
          cases hd
          exact ⟨hne, hr⟩
      · cases e <;> simp at hd
    · intro hz
      constructor
      · intro c
        simp [Tube.handleDemand, hz]
      · intro job
        simp [Tube.handleDemand, hz]
  have runs : ∀ (events : List Event) (t : Tube), ∃ u, t.run events = some u := by
    intro events
    induction events with
    | nil => exact fun t => ⟨t, rfl⟩
    | cons e es ih =>
      intro t
      unfold Tube.run
      have hs := (step t e).1
      split
      · exact ih _
      · exact ih _
      · exact ih _
      · rename_i hp
        exact absurd hp hs
  obtain ⟨t, ht⟩ := runs events (newTube name)
  exact ⟨t, ht, step t⟩

/-- C10, evaluated on the code: for the empty line, and for a line of blanks
only, `strings.Fields` returns no field and `chunks[0]` is out of range:
`readCommand` panics instead of returning a command. -/
theorem readCommand_empty_line_panics :
    readCommand (Except.ok "") = ReadResult.indexOutOfRange ∧
      readCommand (Except.ok "  ") = ReadResult.indexOutOfRange ∧
      readCommand (Except.ok "put 1 2") = ReadResult.ok { name := "put", args := ["1", "2"] } := by
  decide

end Gostalk
